import Mathlib

/-!
Verification of the client-side data synchronization layer of a habit/task
tracker (file src/lib/realtime.js): the pending-update ledger
(OptimisticUpdates), the read cache (DataCache), the subscription registry
(RealtimeManager) and the connectivity monitor (ConnectionMonitor) are
embedded as executable Lean definitions, and the specified properties are
settled as theorems about those definitions.
-/

set_option autoImplicit false

namespace Habit

/-! ## JavaScript value model

Records of the application (habits, habit logs, todos) are flat JavaScript
objects whose field values are primitives; strict equality (triple equals)
on primitives of different runtime types is false, which the derived
decidable equality on the inductive below reproduces. A missing property
reads as `jundef`. -/

inductive JSVal where
  | jundef : JSVal
  | jnull : JSVal
  | jbool : Bool → JSVal
  | jnum : Int → JSVal
  | jstr : String → JSVal
deriving DecidableEq, Repr

/-- A JavaScript object with primitive-valued fields, as an association list
in property-insertion order. -/
abbrev Record : Type := List (String × JSVal)

/-! ## Generic list and association-list helpers

These model the JavaScript primitives used by realtime.js: `Array.findIndex`
(first index satisfying a predicate, or absent), `Array.splice(i, 1)`
(remove the element at index i), indexed assignment, `Map.get`, `Map.set`
(overwrite in place, append when fresh) and `Map.delete`. Since the keys of
a JavaScript Map are unique, `Map.delete` is modelled as a key filter. -/

def findIndex {α : Type} (p : α → Bool) : List α → Option Nat
  | [] => none
  | x :: xs => if p x then some 0 else (findIndex p xs).map (· + 1)

def removeAt {α : Type} : List α → Nat → List α
  | [], _ => []
  | _ :: xs, 0 => xs
  | x :: xs, n + 1 => x :: removeAt xs n

def setAt {α : Type} : List α → Nat → α → List α
  | [], _, _ => []
  | _ :: xs, 0, v => v :: xs
  | x :: xs, n + 1, v => x :: setAt xs n v

def getAt {α : Type} (d : α) : List α → Nat → α
  | [], _ => d
  | x :: _, 0 => x
  | _ :: xs, n + 1 => getAt d xs n

def lookupKey {β : Type} (k : String) : List (String × β) → Option β
  | [] => none
  | kv :: rest => if kv.1 = k then some kv.2 else lookupKey k rest

def mapSet {β : Type} (k : String) (v : β) : List (String × β) → List (String × β)
  | [] => [(k, v)]
  | kv :: rest => if kv.1 = k then (k, v) :: rest else kv :: mapSet k v rest

def eraseKey {β : Type} (k : String) : List (String × β) → List (String × β)
  | [] => []
  | kv :: rest => if kv.1 = k then eraseKey k rest else kv :: eraseKey k rest

/-- Map.delete on a collection modelled by its key list. -/
def delKey (key : String) : List String → List String
  | [] => []
  | x :: xs => if x = key then delKey key xs else x :: delKey key xs

def keysNodup {β : Type} (l : List (String × β)) : Prop :=
  (l.map Prod.fst).Nodup

def countKey {β : Type} (k : String) : List (String × β) → Nat
  | [] => 0
  | kv :: rest => if kv.1 = k then countKey k rest + 1 else countKey k rest

/-- Property read on a JavaScript object: a missing field reads as
undefined. -/
def getField (r : Record) (k : String) : JSVal :=
  match lookupKey k r with
  | some v => v
  | none => JSVal.jundef

/-- Object spread merge, the JS expression with spread of a then spread of
b inside an object literal: fields of `a` in their order with values
overridden by `b` where present, then the fields of `b` absent from `a`
in their order. -/
def spreadMerge (a b : Record) : Record :=
  a.map (fun kv => match lookupKey kv.1 b with
    | some v => (kv.1, v)
    | none => kv)
  ++ b.filter (fun kv => (lookupKey kv.1 a).isNone)

/-! ## Pending updates (OptimisticUpdates)

A pending update is the JavaScript object handed to `addPendingUpdate`,
carrying the fields the appliers read: `type`, `operation`, `data`, `id`,
`habitId`, `logDate`, and the `timestamp` stamped at insertion. Fields a
particular update does not use are `jundef`, as in JavaScript. -/

structure PendingUpdate where
  type : String
  operation : String
  data : Record
  id : JSVal
  habitId : JSVal
  logDate : JSVal
  timestamp : Nat
deriving DecidableEq

/-- The ledger `this.pendingUpdates`: a Map from caller-chosen string keys
to pending updates, in insertion order. -/
abbrev Ledger : Type := List (String × PendingUpdate)

namespace OptimisticUpdates

/-- addPendingUpdate(key, update): stores the update spread together with a
timestamp of the current time, under the given key (Map.set). -/
def addPendingUpdate (now : Nat) (key : String) (update : PendingUpdate)
    (l : Ledger) : Ledger :=
  mapSet key { update with timestamp := now } l

/-- removePendingUpdate(key): Map.delete. -/
def removePendingUpdate (key : String) (l : Ledger) : Ledger :=
  eraseKey key l

/-- getPendingUpdate(key): Map.get. -/
def getPendingUpdate (key : String) (l : Ledger) : Option PendingUpdate :=
  lookupKey key l

/-- cleanOldUpdates(): deletes every entry with now - timestamp > 30000. -/
def cleanOldUpdates (now : Nat) (l : Ledger) : Ledger :=
  l.filter (fun kv => ¬ (now - kv.2.timestamp > 30000))

/-- Loop body of applyToHabits for one pending update: matching type
habit, operation add pushes the payload, delete splices out the record at
findIndex on id when found, update overwrites the record at findIndex on
id with the spread merge of the record and the update data. -/
def habitStep (result : List Record) (u : PendingUpdate) : List Record :=
  if u.type = "habit" then
    if u.operation = "add" then
      result ++ [u.data]
    else if u.operation = "delete" then
      match findIndex (fun h => getField h "id" = u.id) result with
      | some i => removeAt result i
      | none => result
    else if u.operation = "update" then
      match findIndex (fun h => getField h "id" = u.id) result with
      | some i => setAt result i (spreadMerge (getAt [] result i) u.data)
      | none => result
    else result
  else result

/-- applyToHabits(habits): copies the base array and applies every pending
update of type habit in ledger iteration order. -/
def applyToHabits (l : Ledger) (habits : List Record) : List Record :=
  l.foldl (fun result kv => habitStep result kv.2) habits

/-- Loop body of applyToHabitLogs for one pending update: matching type
habitLog, operation add pushes the payload, delete splices out the record
at findIndex on the composite key habit_id and log_date when found. There
is no update branch. -/
def habitLogStep (result : List Record) (u : PendingUpdate) : List Record :=
  if u.type = "habitLog" then
    if u.operation = "add" then
      result ++ [u.data]
    else if u.operation = "delete" then
      match findIndex (fun log =>
          getField log "habit_id" = u.habitId ∧ getField log "log_date" = u.logDate) result with
      | some i => removeAt result i
      | none => result
    else result
  else result

/-- applyToHabitLogs(habitLogs): copies the base array and applies every
pending update of type habitLog in ledger iteration order. -/
def applyToHabitLogs (l : Ledger) (habitLogs : List Record) : List Record :=
  l.foldl (fun result kv => habitLogStep result kv.2) habitLogs

/-- Loop body of applyToTodos for one pending update: same shape as
habitStep with type tag todo. -/
def todoStep (result : List Record) (u : PendingUpdate) : List Record :=
  if u.type = "todo" then
    if u.operation = "add" then
      result ++ [u.data]
    else if u.operation = "delete" then
      match findIndex (fun t => getField t "id" = u.id) result with
      | some i => removeAt result i
      | none => result
    else if u.operation = "update" then
      match findIndex (fun t => getField t "id" = u.id) result with
      | some i => setAt result i (spreadMerge (getAt [] result i) u.data)
      | none => result
    else result
  else result

/-- applyToTodos(todos): copies the base array and applies every pending
update of type todo in ledger iteration order. -/
def applyToTodos (l : Ledger) (todos : List Record) : List Record :=
  l.foldl (fun result kv => todoStep result kv.2) todos

end OptimisticUpdates

/-! ## Spec-side projection

The specification phrases `project` uniformly over the three entity
classes: add appends the payload, update replaces the first record whose
id equals the update target id by a field-by-field merge, delete removes
the first record matching the update identity (by id, or by the composite
key habit_id + log_date for habit logs). The definitions below follow the
words of the spec, to be compared with the source appliers above. -/

/-- Replace the first element satisfying `p` by its image under `f`. -/
def updateFirst {α : Type} (p : α → Bool) (f : α → α) : List α → List α
  | [] => []
  | x :: xs => if p x then f x :: xs else x :: updateFirst p f xs

/-- Remove the first element satisfying `p`. -/
def removeFirst {α : Type} (p : α → Bool) : List α → List α
  | [] => []
  | x :: xs => if p x then xs else x :: removeFirst p xs

/-- An entity class as the spec describes it: a type tag and the identity
predicate its delete operation matches records by. -/
structure EntityKind where
  tag : String
  deleteMatch : PendingUpdate → Record → Bool

/-- The habit entity class: deletes match by id. -/
def habitKind : EntityKind :=
  ⟨"habit", fun u r => getField r "id" = u.id⟩

/-- The todo entity class: deletes match by id. -/
def todoKind : EntityKind :=
  ⟨"todo", fun u r => getField r "id" = u.id⟩

/-- The habit-log entity class: deletes match by the composite key
habit_id + log_date. -/
def habitLogKind : EntityKind :=
  ⟨"habitLog", fun u r => getField r "habit_id" = u.habitId ∧ getField r "log_date" = u.logDate⟩

/-- One spec-side projection step: apply one pending update of the matching
entity class, with add, update and delete as the spec words them. -/
def specStep (cls : EntityKind) (result : List Record) (u : PendingUpdate) : List Record :=
  if u.type = cls.tag then
    if u.operation = "add" then
      result ++ [u.data]
    else if u.operation = "update" then
      updateFirst (fun r => getField r "id" = u.id) (fun r => spreadMerge r u.data) result
    else if u.operation = "delete" then
      removeFirst (cls.deleteMatch u) result
    else result
  else result

/-- Spec-side `project`: fold every matching pending update over the base
collection in ledger iteration order. -/
def specProject (cls : EntityKind) (l : Ledger) (base : List Record) : List Record :=
  l.foldl (fun result kv => specStep cls result kv.2) base

/-- One spec-side projection step restricted to add and delete, the
amended behavior for habit logs (the source has no update branch there). -/
def specStepAddDelete (cls : EntityKind) (result : List Record) (u : PendingUpdate) : List Record :=
  if u.type = cls.tag then
    if u.operation = "add" then
      result ++ [u.data]
    else if u.operation = "delete" then
      removeFirst (cls.deleteMatch u) result
    else result
  else result

/-- Spec-side projection with update-type pending updates ignored. -/
def specProjectAddDelete (cls : EntityKind) (l : Ledger) (base : List Record) : List Record :=
  l.foldl (fun result kv => specStepAddDelete cls result kv.2) base

/-! ## Read cache (DataCache) -/

/-- One cache entry: the stored value and its capture timestamp. -/
structure CacheEntry where
  value : JSVal
  timestamp : Nat
deriving DecidableEq

/-- The DataCache: a Map of entries plus the fixed time-to-live configured
at construction (default 300000 ms). -/
structure DataCache where
  cache : List (String × CacheEntry)
  ttl : Nat
deriving DecidableEq

namespace DataCache

/-- set(key, value): stores the value with the current timestamp,
overwriting any existing entry for that key. -/
def set (c : DataCache) (key : String) (value : JSVal) (now : Nat) : DataCache :=
  { c with cache := mapSet key ⟨value, now⟩ c.cache }

/-- get(key): absent entries read as null; an entry older than ttl is
deleted and reads as null; otherwise the stored value is returned and the
cache is untouched. The result pairs the returned value with the cache
state after the call. -/
def get (c : DataCache) (key : String) (now : Nat) : JSVal × DataCache :=
  match lookupKey key c.cache with
  | none => (JSVal.jnull, c)
  | some item =>
    if now - item.timestamp > c.ttl then
      (JSVal.jnull, { c with cache := eraseKey key c.cache })
    else
      (item.value, c)

/-- clear(): drops every entry. -/
def clear (c : DataCache) : DataCache :=
  { c with cache := [] }

/-- cleanup(): deletes every entry older than ttl. -/
def cleanup (c : DataCache) (now : Nat) : DataCache :=
  { c with cache := c.cache.filter (fun kv => ¬ (now - kv.2.timestamp > c.ttl)) }

end DataCache

/-! ## Subscription registry (RealtimeManager)

State: the `subscriptions` Map (modelled by its key set, since only
presence and teardown matter, plus a counter of upstream subscriptions
ever created) and the `callbacks` Map from subscription keys to observer
sets. A JavaScript Set is modelled as a duplicate-free list in insertion
order; callbacks are identified by natural numbers. -/

inductive RMOp where
  | sub (cb : Nat) : RMOp
  | unsub (cb : Nat) : RMOp
deriving DecidableEq

structure RMState where
  subscriptions : List String
  callbacks : List (String × List Nat)
  created : Nat
deriving DecidableEq

/-- The composite subscription key computed by subscribe. -/
def subscriptionKey (table : String) (filter : Option String) : String :=
  table ++ "-" ++ (filter.getD "all")

/-- Set.add: append unless already a member. -/
def addCb (l : List Nat) (c : Nat) : List Nat :=
  if c ∈ l then l else l ++ [c]

/-- Set.delete: remove the member if present. -/
def delCb : List Nat → Nat → List Nat
  | [], _ => []
  | x :: xs, c => if x = c then xs else x :: delCb xs c

/-- subscribe(table, callback, filter) restricted to its state effect:
ensure a callback set exists for the key and add the callback to it
(always), and if no upstream subscription exists for the key, establish
one (counted by `created`). -/
def subscribeRM (s : RMState) (key : String) (cb : Nat) : RMState :=
  if key ∈ s.subscriptions then
    { s with callbacks := mapSet key (addCb ((lookupKey key s.callbacks).getD []) cb) s.callbacks }
  else
    { s with callbacks := mapSet key (addCb ((lookupKey key s.callbacks).getD []) cb) s.callbacks,
             subscriptions := s.subscriptions ++ [key],
             created := s.created + 1 }

/-- The closure returned by subscribe: delete the callback from the key
observer set; if the set became empty, tear down the upstream subscription
and delete both bookkeeping entries. With no callback entry for the key
both steps are skipped (optional chaining). -/
def unsubscribeRM (s : RMState) (key : String) (cb : Nat) : RMState :=
  match lookupKey key s.callbacks with
  | none => s
  | some l =>
    if delCb l cb = [] then
      { s with subscriptions := delKey key s.subscriptions,
               callbacks := eraseKey key s.callbacks }
    else
      { s with callbacks := mapSet key (delCb l cb) s.callbacks }

def rmStep (key : String) (s : RMState) (op : RMOp) : RMState :=
  match op with
  | RMOp.sub c => subscribeRM s key c
  | RMOp.unsub c => unsubscribeRM s key c

/-- Run a sequence of subscribe and unsubscribe calls on one key. -/
def runOps (s : RMState) (key : String) (ops : List RMOp) : RMState :=
  ops.foldl (rmStep key) s

/-- The current observer list of a key (empty when no entry exists). -/
def cbList (s : RMState) (key : String) : List Nat :=
  (lookupKey key s.callbacks).getD []

/-- The registry invariant claimed by the spec: an upstream subscription
exists for a key exactly when the key has a non-empty observer set. -/
def invP (s : RMState) : Prop :=
  ∀ key, key ∈ s.subscriptions ↔ ∃ l, lookupKey key s.callbacks = some l ∧ l ≠ []

/-- Trace admissibility for one key, tracking the evolving observer set:
each non-final operation leaves the observer set non-empty, and the final
operation is the unsubscribe of the last remaining observer. This is the
shape of a sequence of subscribe calls interleaved with their matching
unsubscribe calls in which teardown is due exactly once, at the end. -/
def okTrace : List Nat → List RMOp → Bool
  | _, [] => false
  | pending, op :: ops =>
    match op, ops with
    | RMOp.sub _, [] => false
    | RMOp.unsub c, [] => decide (c ∈ pending) && decide (delCb pending c = [])
    | RMOp.sub c, _ :: _ => okTrace (addCb pending c) ops
    | RMOp.unsub c, _ :: _ => decide (delCb pending c ≠ []) && okTrace (delCb pending c) ops

/-! ## Callback fan-out with exception isolation

A callback body is modelled in the exception monad: the environment maps a
callback identifier and the delivered event to either a normal return or a
thrown error. The fan-out loop wraps every invocation in a try/catch that
logs the thrown error and continues; its result collects, per callback,
the logged error if any. -/

/-- Outcome of one isolated invocation: try calls the callback on the
event, catch turns a thrown error into a logged message. -/
def invokeLogged {E : Type} (env : Nat → E → Except String Unit) (e : E) (c : Nat) :
    Except String (Nat × Option String) :=
  tryCatch (do
    let _ ← env c e
    pure (c, (none : Option String)))
    (fun msg => pure (c, some msg))

/-- Fan-out of one event over a callback list, sequentially, every
invocation isolated. The ambient exception monad records whether anything
propagated out of the loop. -/
def fanoutE {E : Type} (env : Nat → E → Except String Unit) (cbs : List Nat) (e : E) :
    Except String (List (Nat × Option String)) :=
  match cbs with
  | [] => pure []
  | c :: rest => do
    let r ← invokeLogged env e c
    let rs ← fanoutE env rest e
    pure (r :: rs)

/-- The logged outcome of one callback run on its own. -/
def errOf (r : Except String Unit) : Option String :=
  match r with
  | Except.ok _ => none
  | Except.error msg => some msg

/-- A Change Event as delivered by the upstream transport. -/
structure ChangeEvent where
  eventType : String
  newRow : Record
  oldRow : Record
deriving DecidableEq

/-- Delivery of one Change Event to the observers of a key: the handler
reads the current callback set for the key and fans the payload out. -/
def deliverRM (s : RMState) (key : String) (env : Nat → ChangeEvent → Except String Unit)
    (e : ChangeEvent) : Except String (List (Nat × Option String)) :=
  fanoutE env (cbList s key) e

/-! ## Connectivity monitor (ConnectionMonitor) -/

structure CMState where
  isOnline : Bool
  callbacks : List Nat
deriving DecidableEq

/-- setOnlineStatus(status): store the flag, then notify every subscribed
callback with the new value, each invocation isolated. -/
def setOnlineStatus (s : CMState) (env : Nat → Bool → Except String Unit) (status : Bool) :
    Except String (CMState × List (Nat × Option String)) := do
  let logs ← fanoutE env s.callbacks status
  pure ({ s with isOnline := status }, logs)

/-! ## Store-based embedding of the appliers

To state that `project` does not mutate its base collection, arrays are
given identity: a store is a heap of arrays, a collection is a reference
into it. The spread copy allocates a fresh array; push, splice and indexed
assignment write through the result reference only. -/

abbrev Store : Type := List (List Record)

def readArr (st : Store) (r : Nat) : List Record :=
  getAt [] st r

def writeArr (st : Store) (r : Nat) (a : List Record) : Store :=
  setAt st r a

/-- One loop iteration of applyToHabits acting on the store through the
result reference. -/
def habitStepRef (rr : Nat) (st : Store) (u : PendingUpdate) : Store :=
  if u.type = "habit" then
    if u.operation = "add" then
      writeArr st rr (readArr st rr ++ [u.data])
    else if u.operation = "delete" then
      match findIndex (fun h => getField h "id" = u.id) (readArr st rr) with
      | some i => writeArr st rr (removeAt (readArr st rr) i)
      | none => st
    else if u.operation = "update" then
      match findIndex (fun h => getField h "id" = u.id) (readArr st rr) with
      | some i => writeArr st rr (setAt (readArr st rr) i
          (spreadMerge (getAt [] (readArr st rr) i) u.data))
      | none => st
    else st
  else st

/-- applyToHabits on the store: allocate the spread copy of the base
array, run the loop against the fresh reference, return the new store and
the result reference. -/
def applyToHabitsRef (st : Store) (habitsRef : Nat) (l : Ledger) : Store × Nat :=
  let rr := st.length
  let st1 := st ++ [readArr st habitsRef]
  (l.foldl (fun s kv => habitStepRef rr s kv.2) st1, rr)

/-- One loop iteration of applyToTodos acting on the store through the
result reference. -/
def todoStepRef (rr : Nat) (st : Store) (u : PendingUpdate) : Store :=
  if u.type = "todo" then
    if u.operation = "add" then
      writeArr st rr (readArr st rr ++ [u.data])
    else if u.operation = "delete" then
      match findIndex (fun t => getField t "id" = u.id) (readArr st rr) with
      | some i => writeArr st rr (removeAt (readArr st rr) i)
      | none => st
    else if u.operation = "update" then
      match findIndex (fun t => getField t "id" = u.id) (readArr st rr) with
      | some i => writeArr st rr (setAt (readArr st rr) i
          (spreadMerge (getAt [] (readArr st rr) i) u.data))
      | none => st
    else st
  else st

/-- applyToTodos on the store. -/
def applyToTodosRef (st : Store) (todosRef : Nat) (l : Ledger) : Store × Nat :=
  let rr := st.length
  let st1 := st ++ [readArr st todosRef]
  (l.foldl (fun s kv => todoStepRef rr s kv.2) st1, rr)

/-! ## Association-list lemmas -/

theorem lookupKey_mapSet_self {β : Type} (k : String) (v : β) (l : List (String × β)) :
    lookupKey k (mapSet k v l) = some v := by
  induction l with
  | nil => simp [mapSet, lookupKey]
  | cons kv rest ih =>
    by_cases h : kv.1 = k
    · simp [mapSet, h, lookupKey]
    · simp [mapSet, h, lookupKey, ih]

theorem lookupKey_mapSet_ne {β : Type} {k k2 : String} (h : k2 ≠ k) (v : β)
    (l : List (String × β)) : lookupKey k2 (mapSet k v l) = lookupKey k2 l := by
  induction l with
  | nil => simp [mapSet, lookupKey, Ne.symm h]
  | cons kv rest ih =>
    by_cases hk : kv.1 = k
    · subst hk
      simp [mapSet, lookupKey, Ne.symm h]
    · simp [mapSet, hk, lookupKey, ih]

theorem lookupKey_eraseKey_self {β : Type} (k : String) (l : List (String × β)) :
    lookupKey k (eraseKey k l) = none := by
  induction l with
  | nil => rfl
  | cons kv rest ih =>
    by_cases h : kv.1 = k
    · simpa [eraseKey, h] using ih
    · simpa [eraseKey, h, lookupKey] using ih

theorem lookupKey_eraseKey_ne {β : Type} {k k2 : String} (h : k2 ≠ k)
    (l : List (String × β)) : lookupKey k2 (eraseKey k l) = lookupKey k2 l := by
  induction l with
  | nil => rfl
  | cons kv rest ih =>
    by_cases hk : kv.1 = k
    · subst hk
      simp [eraseKey, lookupKey, Ne.symm h, ih]
    · simp [eraseKey, hk, lookupKey, ih]

theorem mapSet_mapSet_self {β : Type} (k : String) (a b : β) (l : List (String × β)) :
    mapSet k b (mapSet k a l) = mapSet k b l := by
  induction l with
  | nil => simp [mapSet]
  | cons kv rest ih =>
    by_cases h : kv.1 = k
    · simp [mapSet, h]
    · simp [mapSet, h, ih]

theorem countKey_eq_zero {β : Type} {k : String} :
    ∀ {l : List (String × β)}, k ∉ l.map Prod.fst → countKey k l = 0 := by
  intro l
  induction l with
  | nil => intro _; rfl
  | cons kv rest ih =>
    intro h
    simp only [List.map_cons, List.mem_cons] at h
    push_neg at h
    have hne : ¬ (kv.1 = k) := fun he => h.1 he.symm
    simp [countKey, hne, ih h.2]

theorem countKey_mapSet_of_nodup {β : Type} (k : String) (v : β) :
    ∀ {l : List (String × β)}, keysNodup l → countKey k (mapSet k v l) = 1 := by
  intro l
  induction l with
  | nil => intro _; simp [mapSet, countKey]
  | cons kv rest ih =>
    intro h
    simp only [keysNodup, List.map_cons, List.nodup_cons] at h
    by_cases hk : kv.1 = k
    · subst hk
      simp [mapSet, countKey, countKey_eq_zero h.1]
    · simp [mapSet, hk, countKey, ih h.2]

theorem keys_mapSet {β : Type} (k : String) (v : β) (l : List (String × β)) (a : String) :
    a ∈ (mapSet k v l).map Prod.fst ↔ a = k ∨ a ∈ l.map Prod.fst := by
  induction l with
  | nil => simp [mapSet]
  | cons kv rest ih =>
    by_cases h : kv.1 = k
    · subst h
      have hms : mapSet kv.1 v (kv :: rest) = (kv.1, v) :: rest := by simp [mapSet]
      rw [hms]
      simp only [List.map_cons, List.mem_cons]
      tauto
    · simp [mapSet, h, ih]
      tauto

theorem keysNodup_mapSet {β : Type} (k : String) (v : β) :
    ∀ {l : List (String × β)}, keysNodup l → keysNodup (mapSet k v l) := by
  intro l
  induction l with
  | nil => intro _; simp [mapSet, keysNodup]
  | cons kv rest ih =>
    intro h
    simp only [keysNodup, List.map_cons, List.nodup_cons] at h
    by_cases hk : kv.1 = k
    · subst hk
      have hms : mapSet kv.1 v (kv :: rest) = (kv.1, v) :: rest := by simp [mapSet]
      rw [keysNodup, hms]
      simp only [List.map_cons, List.nodup_cons]
      exact ⟨h.1, h.2⟩
    · have hrest := ih h.2
      simp only [keysNodup, mapSet, if_neg hk, List.map_cons, List.nodup_cons]
      refine ⟨?_, hrest⟩
      intro hmem
      rcases (keys_mapSet k v rest kv.1).mp hmem with he | hm
      · exact hk he
      · exact h.1 hm

/-! ## First-match bridge lemmas

The source expresses first-match removal and replacement with findIndex
followed by splice or indexed assignment; the spec words them as acting on
the first matching record. These lemmas connect the two shapes. -/

theorem findIndex_removeAt {α : Type} (p : α → Bool) (l : List α) :
    (match findIndex p l with
      | some i => removeAt l i
      | none => l) = removeFirst p l := by
  induction l with
  | nil => simp [findIndex, removeFirst]
  | cons x xs ih =>
    by_cases h : p x
    · simp [findIndex, h, removeAt, removeFirst]
    · simp only [findIndex, h, if_neg, Bool.false_eq_true, if_false, removeFirst]
      cases hfi : findIndex p xs with
      | none => simp [hfi] at ih ⊢; exact ih
      | some i => simp [hfi, removeAt] at ih ⊢; exact ih

theorem findIndex_setAt {α : Type} (p : α → Bool) (f : α → α) (d : α) (l : List α) :
    (match findIndex p l with
      | some i => setAt l i (f (getAt d l i))
      | none => l) = updateFirst p f l := by
  induction l with
  | nil => simp [findIndex, updateFirst]
  | cons x xs ih =>
    by_cases h : p x
    · simp [findIndex, h, setAt, getAt, updateFirst]
    · simp only [findIndex, h, Bool.false_eq_true, if_false, updateFirst]
      cases hfi : findIndex p xs with
      | none => simp [hfi] at ih ⊢; exact ih
      | some i => simp [hfi, setAt, getAt] at ih ⊢; exact ih

/-! ## Source appliers versus spec projection -/

theorem habitStep_eq_specStep (res : List Record) (u : PendingUpdate) :
    OptimisticUpdates.habitStep res u = specStep habitKind res u := by
  by_cases ht : u.type = "habit"
  · by_cases ha : u.operation = "add"
    · simp [OptimisticUpdates.habitStep, specStep, habitKind, ht, ha]
    · by_cases hd : u.operation = "delete"
      · have hup : ¬ (u.operation = "update") := by simp [hd]
        simp only [OptimisticUpdates.habitStep, specStep, habitKind]
        simp only [if_pos ht, if_neg ha, if_pos hd, if_neg hup]
        exact findIndex_removeAt _ res
      · by_cases hup : u.operation = "update"
        · simp only [OptimisticUpdates.habitStep, specStep, habitKind]
          simp only [if_pos ht, if_neg ha, if_neg hd, if_pos hup]
          exact findIndex_setAt (fun h => decide (getField h "id" = u.id))
            (fun r => spreadMerge r u.data) [] res
        · simp [OptimisticUpdates.habitStep, specStep, habitKind, ht, ha, hd, hup]
  · simp [OptimisticUpdates.habitStep, specStep, habitKind, ht]

theorem todoStep_eq_specStep (res : List Record) (u : PendingUpdate) :
    OptimisticUpdates.todoStep res u = specStep todoKind res u := by
  by_cases ht : u.type = "todo"
  · by_cases ha : u.operation = "add"
    · simp [OptimisticUpdates.todoStep, specStep, todoKind, ht, ha]
    · by_cases hd : u.operation = "delete"
      · have hup : ¬ (u.operation = "update") := by simp [hd]
        simp only [OptimisticUpdates.todoStep, specStep, todoKind]
        simp only [if_pos ht, if_neg ha, if_pos hd, if_neg hup]
        exact findIndex_removeAt _ res
      · by_cases hup : u.operation = "update"
        · simp only [OptimisticUpdates.todoStep, specStep, todoKind]
          simp only [if_pos ht, if_neg ha, if_neg hd, if_pos hup]
          exact findIndex_setAt (fun t => decide (getField t "id" = u.id))
            (fun r => spreadMerge r u.data) [] res
        · simp [OptimisticUpdates.todoStep, specStep, todoKind, ht, ha, hd, hup]
  · simp [OptimisticUpdates.todoStep, specStep, todoKind, ht]

theorem habitLogStep_eq_specStepAddDelete (res : List Record) (u : PendingUpdate) :
    OptimisticUpdates.habitLogStep res u = specStepAddDelete habitLogKind res u := by
  by_cases ht : u.type = "habitLog"
  · by_cases ha : u.operation = "add"
    · simp [OptimisticUpdates.habitLogStep, specStepAddDelete, habitLogKind, ht, ha]
    · by_cases hd : u.operation = "delete"
      · simp only [OptimisticUpdates.habitLogStep, specStepAddDelete, habitLogKind]
        simp only [if_pos ht, if_neg ha, if_pos hd]
        exact findIndex_removeAt _ res
      · simp [OptimisticUpdates.habitLogStep, specStepAddDelete, habitLogKind, ht, ha, hd]
  · simp [OptimisticUpdates.habitLogStep, specStepAddDelete, habitLogKind, ht]

theorem applyToHabits_eq_specProject (l : Ledger) (base : List Record) :
    OptimisticUpdates.applyToHabits l base = specProject habitKind l base := by
  unfold OptimisticUpdates.applyToHabits specProject
  have hf : (fun (result : List Record) (kv : String × PendingUpdate) =>
      OptimisticUpdates.habitStep result kv.2)
      = (fun result kv => specStep habitKind result kv.2) :=
    funext fun res => funext fun kv => habitStep_eq_specStep res kv.2
  rw [hf]

theorem applyToTodos_eq_specProject (l : Ledger) (base : List Record) :
    OptimisticUpdates.applyToTodos l base = specProject todoKind l base := by
  unfold OptimisticUpdates.applyToTodos specProject
  have hf : (fun (result : List Record) (kv : String × PendingUpdate) =>
      OptimisticUpdates.todoStep result kv.2)
      = (fun result kv => specStep todoKind result kv.2) :=
    funext fun res => funext fun kv => todoStep_eq_specStep res kv.2
  rw [hf]

theorem applyToHabitLogs_eq_specProjectAddDelete (l : Ledger) (base : List Record) :
    OptimisticUpdates.applyToHabitLogs l base = specProjectAddDelete habitLogKind l base := by
  unfold OptimisticUpdates.applyToHabitLogs specProjectAddDelete
  have hf : (fun (result : List Record) (kv : String × PendingUpdate) =>
      OptimisticUpdates.habitLogStep result kv.2)
      = (fun result kv => specStepAddDelete habitLogKind result kv.2) :=
    funext fun res => funext fun kv => habitLogStep_eq_specStepAddDelete res kv.2
  rw [hf]

/-! ## Store lemmas -/

theorem getAt_setAt_self {α : Type} (d v : α) :
    ∀ (l : List α) (i : Nat), i < l.length → getAt d (setAt l i v) i = v := by
  intro l
  induction l with
  | nil => intro i h; simp at h
  | cons x xs ih =>
    intro i h
    cases i with
    | zero => rfl
    | succ n => exact ih n (Nat.lt_of_succ_lt_succ h)

theorem getAt_setAt_ne {α : Type} (d v : α) :
    ∀ (l : List α) (i j : Nat), i ≠ j → getAt d (setAt l i v) j = getAt d l j := by
  intro l
  induction l with
  | nil => intro i j _; rfl
  | cons x xs ih =>
    intro i j hij
    cases i with
    | zero =>
      cases j with
      | zero => exact absurd rfl hij
      | succ m => rfl
    | succ n =>
      cases j with
      | zero => rfl
      | succ m => exact ih n m (fun he => hij (by rw [he]))

theorem setAt_length {α : Type} (v : α) :
    ∀ (l : List α) (i : Nat), (setAt l i v).length = l.length := by
  intro l
  induction l with
  | nil => intro i; rfl
  | cons x xs ih =>
    intro i
    cases i with
    | zero => rfl
    | succ n => simp [setAt, ih n]

theorem setAt_getAt {α : Type} (d : α) :
    ∀ (l : List α) (i : Nat), setAt l i (getAt d l i) = l := by
  intro l
  induction l with
  | nil => intro i; rfl
  | cons x xs ih =>
    intro i
    cases i with
    | zero => rfl
    | succ n => simp [setAt, getAt, ih n]

theorem getAt_append_lt {α : Type} (d : α) :
    ∀ (l m : List α) (i : Nat), i < l.length → getAt d (l ++ m) i = getAt d l i := by
  intro l
  induction l with
  | nil => intro m i h; simp at h
  | cons x xs ih =>
    intro m i h
    cases i with
    | zero => rfl
    | succ n => exact ih m n (Nat.lt_of_succ_lt_succ h)

theorem getAt_append_len {α : Type} (d a : α) :
    ∀ (l : List α), getAt d (l ++ [a]) l.length = a := by
  intro l
  induction l with
  | nil => rfl
  | cons x xs ih => simpa [getAt] using ih

/-- Each iteration of the store-level habit applier is a write of the pure
step through the result reference. -/
theorem habitStepRef_eq (rr : Nat) (st : Store) (u : PendingUpdate) :
    habitStepRef rr st u = writeArr st rr (OptimisticUpdates.habitStep (readArr st rr) u) := by
  unfold habitStepRef OptimisticUpdates.habitStep writeArr readArr
  by_cases ht : u.type = "habit"
  · by_cases ha : u.operation = "add"
    · simp [ht, ha]
    · by_cases hd : u.operation = "delete"
      · simp only [if_pos ht, if_neg ha, if_pos hd]
        cases hfi : findIndex (fun h => getField h "id" = u.id) (getAt [] st rr) with
        | some i => simp [hfi]
        | none => simp [hfi, setAt_getAt]
      · by_cases hup : u.operation = "update"
        · simp only [if_pos ht, if_neg ha, if_neg hd, if_pos hup]
          cases hfi : findIndex (fun h => getField h "id" = u.id) (getAt [] st rr) with
          | some i => simp [hfi]
          | none => simp [hfi, setAt_getAt]
        · simp [ht, ha, hd, hup, setAt_getAt]
  · simp [ht, setAt_getAt]

/-- Each iteration of the store-level todo applier is a write of the pure
step through the result reference. -/
theorem todoStepRef_eq (rr : Nat) (st : Store) (u : PendingUpdate) :
    todoStepRef rr st u = writeArr st rr (OptimisticUpdates.todoStep (readArr st rr) u) := by
  unfold todoStepRef OptimisticUpdates.todoStep writeArr readArr
  by_cases ht : u.type = "todo"
  · by_cases ha : u.operation = "add"
    · simp [ht, ha]
    · by_cases hd : u.operation = "delete"
      · simp only [if_pos ht, if_neg ha, if_pos hd]
        cases hfi : findIndex (fun t => getField t "id" = u.id) (getAt [] st rr) with
        | some i => simp [hfi]
        | none => simp [hfi, setAt_getAt]
      · by_cases hup : u.operation = "update"
        · simp only [if_pos ht, if_neg ha, if_neg hd, if_pos hup]
          cases hfi : findIndex (fun t => getField t "id" = u.id) (getAt [] st rr) with
          | some i => simp [hfi]
          | none => simp [hfi, setAt_getAt]
        · simp [ht, ha, hd, hup, setAt_getAt]
  · simp [ht, setAt_getAt]

/-- A fold of per-entry writes through one reference leaves every other
reference untouched. -/
theorem foldWrite_frame (rr : Nat) (f : List Record → PendingUpdate → List Record)
    (g : Store → PendingUpdate → Store)
    (hg : ∀ s u, g s u = writeArr s rr (f (readArr s rr) u)) :
    ∀ (l : Ledger) (st : Store) (j : Nat), j ≠ rr →
      getAt [] (l.foldl (fun s kv => g s kv.2) st) j = getAt [] st j := by
  intro l
  induction l with
  | nil => intro st j _; rfl
  | cons kv rest ih =>
    intro st j hj
    have hstep : getAt ([] : List Record) (g st kv.2) j = getAt [] st j := by
      rw [hg]
      exact getAt_setAt_ne _ _ st rr j (fun he => hj he.symm)
    calc getAt [] ((kv :: rest).foldl (fun s kv2 => g s kv2.2) st) j
        = getAt [] (rest.foldl (fun s kv2 => g s kv2.2) (g st kv.2)) j := by
          simp [List.foldl_cons]
      _ = getAt [] (g st kv.2) j := ih (g st kv.2) j hj
      _ = getAt [] st j := hstep

/-- A fold of per-entry writes preserves the store size. -/
theorem foldWrite_length (rr : Nat) (f : List Record → PendingUpdate → List Record)
    (g : Store → PendingUpdate → Store)
    (hg : ∀ s u, g s u = writeArr s rr (f (readArr s rr) u)) :
    ∀ (l : Ledger) (st : Store), (l.foldl (fun s kv => g s kv.2) st).length = st.length := by
  intro l
  induction l with
  | nil => intro st; rfl
  | cons kv rest ih =>
    intro st
    calc ((kv :: rest).foldl (fun s kv2 => g s kv2.2) st).length
        = (rest.foldl (fun s kv2 => g s kv2.2) (g st kv.2)).length := by
          simp [List.foldl_cons]
      _ = (g st kv.2).length := ih (g st kv.2)
      _ = st.length := by rw [hg]; exact setAt_length _ st rr

/-- Through the result reference, the fold of per-entry writes computes the
pure fold of the steps on the referenced array. -/
theorem foldWrite_content (rr : Nat) (f : List Record → PendingUpdate → List Record)
    (g : Store → PendingUpdate → Store)
    (hg : ∀ s u, g s u = writeArr s rr (f (readArr s rr) u)) :
    ∀ (l : Ledger) (st : Store), rr < st.length →
      getAt [] (l.foldl (fun s kv => g s kv.2) st) rr
        = l.foldl (fun res kv => f res kv.2) (getAt [] st rr) := by
  intro l
  induction l with
  | nil => intro st _; rfl
  | cons kv rest ih =>
    intro st hlt
    have hlen : rr < (g st kv.2).length := by
      rw [hg]
      unfold writeArr
      rw [setAt_length]
      exact hlt
    have hread : getAt ([] : List Record) (g st kv.2) rr = f (getAt [] st rr) kv.2 := by
      rw [hg]
      exact getAt_setAt_self _ _ st rr hlt
    calc getAt [] ((kv :: rest).foldl (fun s kv2 => g s kv2.2) st) rr
        = getAt [] (rest.foldl (fun s kv2 => g s kv2.2) (g st kv.2)) rr := by
          simp [List.foldl_cons]
      _ = rest.foldl (fun res kv2 => f res kv2.2) (getAt [] (g st kv.2) rr) := ih _ hlen
      _ = rest.foldl (fun res kv2 => f res kv2.2) (f (getAt [] st rr) kv.2) := by rw [hread]
      _ = (kv :: rest).foldl (fun res kv2 => f res kv2.2) (getAt [] st rr) := by
          simp [List.foldl_cons]

/-! ## Registry set lemmas -/

theorem addCb_ne_nil (l : List Nat) (c : Nat) : addCb l c ≠ [] := by
  unfold addCb
  by_cases h : c ∈ l
  · simp only [if_pos h]
    exact List.ne_nil_of_mem h
  · simp [h]

theorem mem_addCb {l : List Nat} {a c : Nat} : a ∈ addCb l c ↔ a ∈ l ∨ a = c := by
  unfold addCb
  by_cases h : c ∈ l
  · simp only [if_pos h]
    constructor
    · exact Or.inl
    · rintro (h1 | rfl)
      · exact h1
      · exact h
  · simp [h]

theorem mem_delCb_sub : ∀ {l : List Nat} {a c : Nat}, a ∈ delCb l c → a ∈ l := by
  intro l
  induction l with
  | nil => intro a c h; simp [delCb] at h
  | cons x xs ih =>
    intro a c h
    by_cases hx : x = c
    · rw [delCb, if_pos hx] at h
      exact List.mem_cons_of_mem x h
    · rw [delCb, if_neg hx] at h
      rcases List.mem_cons.mp h with rfl | hm
      · exact List.mem_cons_self a xs
      · exact List.mem_cons_of_mem x (ih hm)

theorem not_mem_delCb_self : ∀ {l : List Nat}, l.Nodup → ∀ c, c ∉ delCb l c := by
  intro l
  induction l with
  | nil => intro _ c h; simp [delCb] at h
  | cons x xs ih =>
    intro hnd c
    rw [List.nodup_cons] at hnd
    by_cases hx : x = c
    · rw [delCb, if_pos hx]
      subst hx
      exact hnd.1
    · rw [delCb, if_neg hx]
      intro h
      rcases List.mem_cons.mp h with rfl | hm
      · exact hx rfl
      · exact ih hnd.2 c hm

theorem not_mem_delKey_self (key : String) : ∀ l : List String, key ∉ delKey key l := by
  intro l
  induction l with
  | nil => simp [delKey]
  | cons x xs ih =>
    by_cases hx : x = key
    · rw [delKey, if_pos hx]
      exact ih
    · rw [delKey, if_neg hx]
      intro h
      rcases List.mem_cons.mp h with rfl | hm
      · exact hx rfl
      · exact ih hm

theorem mem_delKey_ne {a key : String} (h : a ≠ key) :
    ∀ l : List String, a ∈ delKey key l ↔ a ∈ l := by
  intro l
  induction l with
  | nil => simp [delKey]
  | cons x xs ih =>
    by_cases hx : x = key
    · subst hx
      rw [delKey, if_pos rfl]
      rw [ih]
      simp [List.mem_cons]
      intro he
      exact absurd he h
    · rw [delKey, if_neg hx]
      simp [List.mem_cons, ih]

/-! ## Registry invariant preservation -/

theorem invP_subscribeRM (s : RMState) (key : String) (c : Nat) (hs : invP s) :
    invP (subscribeRM s key c) := by
  intro key2
  unfold subscribeRM
  by_cases hsub : key ∈ s.subscriptions
  · rw [if_pos hsub]
    by_cases hk : key2 = key
    · subst hk
      simp only [lookupKey_mapSet_self]
      constructor
      · intro _
        exact ⟨_, rfl, addCb_ne_nil _ _⟩
      · intro _
        exact hsub
    · simp only [lookupKey_mapSet_ne hk]
      exact hs key2
  · rw [if_neg hsub]
    by_cases hk : key2 = key
    · subst hk
      simp only [lookupKey_mapSet_self, List.mem_append, List.mem_singleton]
      constructor
      · intro _
        exact ⟨_, rfl, addCb_ne_nil _ _⟩
      · intro _
        exact Or.inr trivial
    · simp only [lookupKey_mapSet_ne hk, List.mem_append, List.mem_singleton]
      rw [or_iff_left hk]
      exact hs key2

theorem invP_unsubscribeRM (s : RMState) (key : String) (c : Nat) (hs : invP s) :
    invP (unsubscribeRM s key c) := by
  intro key2
  unfold unsubscribeRM
  cases hlk : lookupKey key s.callbacks with
  | none => exact hs key2
  | some l =>
    dsimp only
    by_cases hnil : delCb l c = []
    · rw [if_pos hnil]
      by_cases hk : key2 = key
      · subst hk
        simp only [lookupKey_eraseKey_self]
        constructor
        · intro hmem
          exact absurd hmem (not_mem_delKey_self key2 _)
        · rintro ⟨l2, hl2, _⟩
          exact absurd hl2 (by simp)
      · simp only [lookupKey_eraseKey_ne hk, mem_delKey_ne hk]
        exact hs key2
    · rw [if_neg hnil]
      by_cases hk : key2 = key
      · subst hk
        simp only [lookupKey_mapSet_self]
        have hlne : l ≠ [] := by
          intro he
          subst he
          exact hnil rfl
        constructor
        · intro _
          exact ⟨_, rfl, hnil⟩
        · intro _
          exact (hs key2).mpr ⟨l, hlk, hlne⟩
      · simp only [lookupKey_mapSet_ne hk]
        exact hs key2

/-! ## Trace behavior of the registry -/

theorem subscribeRM_occupied (s : RMState) (key : String) (c : Nat) (pending : List Nat)
    (hlk : lookupKey key s.callbacks = some pending) (hsub : key ∈ s.subscriptions) :
    subscribeRM s key c
      = { s with callbacks := mapSet key (addCb pending c) s.callbacks } := by
  unfold subscribeRM
  rw [if_pos hsub, hlk]
  rfl

theorem subscribeRM_fresh (s : RMState) (key : String) (c : Nat)
    (hlk : lookupKey key s.callbacks = none) (hsub : key ∉ s.subscriptions) :
    subscribeRM s key c
      = { s with callbacks := mapSet key [c] s.callbacks,
                 subscriptions := s.subscriptions ++ [key],
                 created := s.created + 1 } := by
  unfold subscribeRM
  rw [if_neg hsub, hlk]
  rfl

theorem unsubscribeRM_mid (s : RMState) (key : String) (c : Nat) (pending : List Nat)
    (hlk : lookupKey key s.callbacks = some pending) (hne : delCb pending c ≠ []) :
    unsubscribeRM s key c
      = { s with callbacks := mapSet key (delCb pending c) s.callbacks } := by
  unfold unsubscribeRM
  rw [hlk]
  dsimp only
  rw [if_neg hne]

theorem unsubscribeRM_last (s : RMState) (key : String) (c : Nat) (pending : List Nat)
    (hlk : lookupKey key s.callbacks = some pending) (hnil : delCb pending c = []) :
    unsubscribeRM s key c
      = { s with subscriptions := delKey key s.subscriptions,
                 callbacks := eraseKey key s.callbacks } := by
  unfold unsubscribeRM
  rw [hlk]
  dsimp only
  rw [if_pos hnil]

theorem runOps_cons (s : RMState) (key : String) (op : RMOp) (rest : List RMOp) :
    runOps s key (op :: rest) = runOps (rmStep key s op) key rest := by
  simp [runOps, List.foldl_cons]

/-- Auxiliary invariant run: while the trace keeps the observer set
non-empty and ends by emptying it, the machine creates no further upstream
subscription and finishes with the key fully deallocated. -/
theorem rm_trace_aux (key : String) :
    ∀ (ops : List RMOp) (pending : List Nat) (s : RMState),
      okTrace pending ops = true →
      lookupKey key s.callbacks = some pending →
      key ∈ s.subscriptions →
      (runOps s key ops).created = s.created ∧
      key ∉ (runOps s key ops).subscriptions ∧
      lookupKey key (runOps s key ops).callbacks = none := by
  intro ops
  induction ops with
  | nil =>
    intro pending s hok _ _
    simp [okTrace] at hok
  | cons op rest ih =>
    intro pending s hok hlk hsub
    rw [runOps_cons]
    cases op with
    | sub c =>
      cases rest with
      | nil => simp [okTrace] at hok
      | cons r2 rest2 =>
        have hok2 : okTrace (addCb pending c) (r2 :: rest2) = true := by
          simpa [okTrace] using hok
        have hstep : rmStep key s (RMOp.sub c)
            = { s with callbacks := mapSet key (addCb pending c) s.callbacks } := by
          have := subscribeRM_occupied s key c pending (by simpa using hlk) hsub
          simpa [rmStep] using this
        rw [hstep]
        have hlk2 : lookupKey key
            ({ s with callbacks := mapSet key (addCb pending c) s.callbacks} : RMState).callbacks
            = some (addCb pending c) := lookupKey_mapSet_self _ _ _
        exact ih (addCb pending c) _ hok2 hlk2 hsub
    | unsub c =>
      cases rest with
      | nil =>
        have hok2 : c ∈ pending ∧ delCb pending c = [] := by
          simpa [okTrace] using hok
        have hstep : rmStep key s (RMOp.unsub c)
            = { s with subscriptions := delKey key s.subscriptions,
                       callbacks := eraseKey key s.callbacks } := by
          have := unsubscribeRM_last s key c pending hlk hok2.2
          simpa [rmStep] using this
        rw [hstep]
        refine ⟨rfl, ?_, ?_⟩
        · exact not_mem_delKey_self key _
        · exact lookupKey_eraseKey_self key _
      | cons r2 rest2 =>
        have hok2 : delCb pending c ≠ [] ∧ okTrace (delCb pending c) (r2 :: rest2) = true := by
          simpa [okTrace] using hok
        have hstep : rmStep key s (RMOp.unsub c)
            = { s with callbacks := mapSet key (delCb pending c) s.callbacks } := by
          have := unsubscribeRM_mid s key c pending hlk hok2.1
          simpa [rmStep] using this
        rw [hstep]
        have hlk2 : lookupKey key
            ({ s with callbacks := mapSet key (delCb pending c) s.callbacks} : RMState).callbacks
            = some (delCb pending c) := lookupKey_mapSet_self _ _ _
        exact ih (delCb pending c) _ hok2.2 hlk2 hsub

/-- A well-formed trace on a fresh key creates exactly one upstream
subscription and ends with the key fully deallocated. -/
theorem rm_trace_run (key : String) :
    ∀ (ops : List RMOp) (s : RMState),
      okTrace [] ops = true →
      key ∉ s.subscriptions →
      lookupKey key s.callbacks = none →
      (runOps s key ops).created = s.created + 1 ∧
      key ∉ (runOps s key ops).subscriptions ∧
      lookupKey key (runOps s key ops).callbacks = none := by
  intro ops s hok hsub hlk
  cases ops with
  | nil => simp [okTrace] at hok
  | cons op rest =>
    cases op with
    | unsub c =>
      cases rest with
      | nil => simp [okTrace, delCb] at hok
      | cons r2 rest2 => simp [okTrace, delCb] at hok
    | sub c =>
      cases rest with
      | nil => simp [okTrace] at hok
      | cons r2 rest2 =>
        have hok2 : okTrace [c] (r2 :: rest2) = true := by
          simpa [okTrace, addCb] using hok
        rw [runOps_cons]
        have hstep : rmStep key s (RMOp.sub c)
            = { s with callbacks := mapSet key [c] s.callbacks,
                       subscriptions := s.subscriptions ++ [key],
                       created := s.created + 1 } := by
          have := subscribeRM_fresh s key c hlk hsub
          simpa [rmStep, addCb] using this
        rw [hstep]
        have hlk2 : lookupKey key
            ({ s with callbacks := mapSet key [c] s.callbacks,
                      subscriptions := s.subscriptions ++ [key],
                      created := s.created + 1 } : RMState).callbacks
            = some [c] := lookupKey_mapSet_self _ _ _
        have hsub2 : key ∈
            ({ s with callbacks := mapSet key [c] s.callbacks,
                      subscriptions := s.subscriptions ++ [key],
                      created := s.created + 1 } : RMState).subscriptions := by
          simp
        have := rm_trace_aux key (r2 :: rest2) [c] _ hok2 hlk2 hsub2
        exact ⟨this.1, this.2.1, this.2.2⟩

/-! ## Fan-out lemmas -/

theorem invokeLogged_eq {E : Type} (env : Nat → E → Except String Unit) (e : E) (c : Nat) :
    invokeLogged env e c = Except.ok (c, errOf (env c e)) := by
  cases h : env c e with
  | ok v =>
    cases v
    simp only [invokeLogged, h]
    rfl
  | error msg =>
    simp only [invokeLogged, h]
    rfl

theorem fanoutE_eq {E : Type} (env : Nat → E → Except String Unit) (e : E) :
    ∀ cbs : List Nat,
      fanoutE env cbs e = Except.ok (cbs.map (fun c => (c, errOf (env c e)))) := by
  intro cbs
  induction cbs with
  | nil => rfl
  | cons c rest ih =>
    simp only [fanoutE]
    rw [invokeLogged_eq, ih]
    rfl

/-! ## Closed forms of the store-level appliers -/

theorem applyToHabitsRef_length (st : Store) (r : Nat) (l : Ledger) :
    (applyToHabitsRef st r l).1.length = st.length + 1 := by
  unfold applyToHabitsRef
  dsimp only
  rw [foldWrite_length st.length OptimisticUpdates.habitStep (habitStepRef st.length)
    (habitStepRef_eq st.length) l]
  simp

theorem applyToHabitsRef_read_result (st : Store) (r : Nat) (l : Ledger) :
    readArr (applyToHabitsRef st r l).1 st.length
      = OptimisticUpdates.applyToHabits l (readArr st r) := by
  unfold applyToHabitsRef
  dsimp only
  unfold readArr
  rw [foldWrite_content st.length OptimisticUpdates.habitStep (habitStepRef st.length)
    (habitStepRef_eq st.length) l _ (by simp)]
  rw [show getAt ([] : List Record) (st ++ [getAt [] st r]) st.length = getAt [] st r from
    getAt_append_len _ _ st]
  rfl

theorem applyToHabitsRef_frame (st : Store) (r : Nat) (l : Ledger) :
    ∀ j, j < st.length →
      getAt ([] : List Record) (applyToHabitsRef st r l).1 j = getAt [] st j := by
  intro j hj
  unfold applyToHabitsRef
  dsimp only
  rw [foldWrite_frame st.length OptimisticUpdates.habitStep (habitStepRef st.length)
    (habitStepRef_eq st.length) l _ j (Nat.ne_of_lt hj)]
  exact getAt_append_lt _ st _ j hj

theorem applyToTodosRef_length (st : Store) (r : Nat) (l : Ledger) :
    (applyToTodosRef st r l).1.length = st.length + 1 := by
  unfold applyToTodosRef
  dsimp only
  rw [foldWrite_length st.length OptimisticUpdates.todoStep (todoStepRef st.length)
    (todoStepRef_eq st.length) l]
  simp

theorem applyToTodosRef_read_result (st : Store) (r : Nat) (l : Ledger) :
    readArr (applyToTodosRef st r l).1 st.length
      = OptimisticUpdates.applyToTodos l (readArr st r) := by
  unfold applyToTodosRef
  dsimp only
  unfold readArr
  rw [foldWrite_content st.length OptimisticUpdates.todoStep (todoStepRef st.length)
    (todoStepRef_eq st.length) l _ (by simp)]
  rw [show getAt ([] : List Record) (st ++ [getAt [] st r]) st.length = getAt [] st r from
    getAt_append_len _ _ st]
  rfl

theorem applyToTodosRef_frame (st : Store) (r : Nat) (l : Ledger) :
    ∀ j, j < st.length →
      getAt ([] : List Record) (applyToTodosRef st r l).1 j = getAt [] st j := by
  intro j hj
  unfold applyToTodosRef
  dsimp only
  rw [foldWrite_frame st.length OptimisticUpdates.todoStep (todoStepRef st.length)
    (todoStepRef_eq st.length) l _ j (Nat.ne_of_lt hj)]
  exact getAt_append_lt _ st _ j hj

/-! # Claim theorems -/

/-- C1, counterexample: the claim asserts update-merge semantics for every
entity class, but the habitLog applier has no update branch, so a pending
update of type habitLog and operation update is silently ignored while the
spec projection merges it into the matching record. -/
theorem C1_counterexample :
    OptimisticUpdates.applyToHabitLogs
        [("k", ⟨"habitLog", "update", [("completed", JSVal.jbool true)],
          JSVal.jnum 1, JSVal.jnum 1, JSVal.jstr "2026-01-01", 0⟩)]
        [[("id", JSVal.jnum 1), ("habit_id", JSVal.jnum 1),
          ("log_date", JSVal.jstr "2026-01-01"), ("completed", JSVal.jbool false)]]
      ≠ specProject habitLogKind
        [("k", ⟨"habitLog", "update", [("completed", JSVal.jbool true)],
          JSVal.jnum 1, JSVal.jnum 1, JSVal.jstr "2026-01-01", 0⟩)]
        [[("id", JSVal.jnum 1), ("habit_id", JSVal.jnum 1),
          ("log_date", JSVal.jstr "2026-01-01"), ("completed", JSVal.jbool false)]] := by
  decide

/-- C1, amended: project returns a new collection obtained by applying, in
ledger iteration order, every pending update whose type matches the
requested entity class; add appends the payload, update replaces the first
record whose id equals the update target id by the field-by-field merge
(update fields override, others retained), and delete removes the first
record matching the update identity (by id for habits and todos, by the
composite key habit_id plus log_date for habit logs) — except that for
habit logs only add and delete are supported, and an update-type pending
update is ignored. -/
theorem C1_project_semantics (l : Ledger) (base : List Record) :
    OptimisticUpdates.applyToHabits l base = specProject habitKind l base ∧
    OptimisticUpdates.applyToTodos l base = specProject todoKind l base ∧
    OptimisticUpdates.applyToHabitLogs l base = specProjectAddDelete habitLogKind l base :=
  ⟨applyToHabits_eq_specProject l base, applyToTodos_eq_specProject l base,
   applyToHabitLogs_eq_specProjectAddDelete l base⟩

/-- C3: after set(k, v), a get(k) whose elapsed time since the set is at
most the ttl returns v and leaves the cache untouched, while a get whose
elapsed time strictly exceeds the ttl returns null (absent) and removes
the entry from the cache. -/
theorem C3_cache_ttl_boundary (c : DataCache) (k : String) (v : JSVal) (t0 t1 : Nat) :
    (t1 - t0 ≤ c.ttl → (c.set k v t0).get k t1 = (v, c.set k v t0)) ∧
    (t1 - t0 > c.ttl → ((c.set k v t0).get k t1).1 = JSVal.jnull ∧
       lookupKey k ((c.set k v t0).get k t1).2.cache = none) := by
  have hlk : lookupKey k (c.set k v t0).cache = some ⟨v, t0⟩ := by
    unfold DataCache.set
    exact lookupKey_mapSet_self k _ c.cache
  constructor
  · intro h
    unfold DataCache.get
    rw [hlk]
    dsimp only [DataCache.set]
    rw [if_neg (by omega)]
  · intro h
    unfold DataCache.get
    rw [hlk]
    dsimp only [DataCache.set]
    rw [if_pos (by omega)]
    refine ⟨rfl, ?_⟩
    exact lookupKey_eraseKey_self k _

/-- C3 witness: with the default ttl of 300000 ms, a value set at time 0 is
returned at elapsed 299999 and is absent with its entry removed at elapsed
300001. -/
theorem C3_cache_ttl_boundary_witness :
    ((DataCache.set ⟨[], 300000⟩ "k" (JSVal.jstr "v") 0).get "k" 299999).1 = JSVal.jstr "v" ∧
    ((DataCache.set ⟨[], 300000⟩ "k" (JSVal.jstr "v") 0).get "k" 300001).1 = JSVal.jnull ∧
    lookupKey "k" ((DataCache.set ⟨[], 300000⟩ "k" (JSVal.jstr "v") 0).get "k" 300001).2.cache
      = none := by
  refine ⟨?_, ?_, ?_⟩
  · have h := (C3_cache_ttl_boundary ⟨[], 300000⟩ "k" (JSVal.jstr "v") 0 299999).1 (by decide)
    rw [h]
  · exact ((C3_cache_ttl_boundary ⟨[], 300000⟩ "k" (JSVal.jstr "v") 0 300001).2 (by decide)).1
  · exact ((C3_cache_ttl_boundary ⟨[], 300000⟩ "k" (JSVal.jstr "v") 0 300001).2 (by decide)).2

/-- C10: at the cache interface a stored null and an absent entry are
indistinguishable; get returns null when the key was never set, when the
stored value is the null value and the entry is live, when the entry has
expired, and after clear. -/
theorem C10_null_conflation (c : DataCache) (k : String) (now : Nat) :
    (lookupKey k c.cache = none → (c.get k now).1 = JSVal.jnull) ∧
    (∀ t0, now - t0 ≤ c.ttl → ((c.set k JSVal.jnull t0).get k now).1 = JSVal.jnull) ∧
    (∀ v t0, now - t0 > c.ttl → ((c.set k v t0).get k now).1 = JSVal.jnull) ∧
    ((c.clear.get k now).1 = JSVal.jnull) := by
  refine ⟨?_, ?_, ?_, ?_⟩
  · intro h
    unfold DataCache.get
    rw [h]
  · intro t0 h
    unfold DataCache.get DataCache.set
    rw [lookupKey_mapSet_self]
    dsimp only
    rw [if_neg (by omega)]
  · intro v t0 h
    unfold DataCache.get DataCache.set
    rw [lookupKey_mapSet_self]
    dsimp only
    rw [if_pos (by omega)]
  · unfold DataCache.clear DataCache.get
    dsimp only
    rfl

/-- C10 witness: a never-set key and a key holding a stored null both read
as null. -/
theorem C10_null_conflation_witness :
    ((⟨[], 300000⟩ : DataCache).get "k" 100).1 = JSVal.jnull ∧
    ((DataCache.set ⟨[], 300000⟩ "k" JSVal.jnull 0).get "k" 100).1 = JSVal.jnull := by
  refine ⟨?_, ?_⟩
  · exact (C10_null_conflation ⟨[], 300000⟩ "k" 100).1 rfl
  · exact (C10_null_conflation ⟨[], 300000⟩ "k" 100).2.1 0 (by decide)

/-- C7: the ledger sweep keeps exactly the entries whose age is at most
30000 ms, in order and unchanged; every entry whose age exceeds 30000 ms
is removed and therefore contributes nothing to any subsequent projection. -/
theorem C7_sweep_eviction (now : Nat) (l : Ledger) :
    OptimisticUpdates.cleanOldUpdates now l
        = l.filter (fun kv => now - kv.2.timestamp ≤ 30000) ∧
    (∀ kv ∈ l, now - kv.2.timestamp > 30000 →
       kv ∉ OptimisticUpdates.cleanOldUpdates now l) ∧
    (∀ kv ∈ l, now - kv.2.timestamp ≤ 30000 →
       kv ∈ OptimisticUpdates.cleanOldUpdates now l) ∧
    (∀ base, OptimisticUpdates.applyToHabits (OptimisticUpdates.cleanOldUpdates now l) base
       = OptimisticUpdates.applyToHabits
           (l.filter (fun kv => now - kv.2.timestamp ≤ 30000)) base) := by
  have hfe : (fun kv : String × PendingUpdate => decide (¬ (now - kv.2.timestamp > 30000)))
      = (fun kv : String × PendingUpdate => decide (now - kv.2.timestamp ≤ 30000)) := by
    funext kv
    exact decide_eq_decide.mpr (by omega)
  have h1 : OptimisticUpdates.cleanOldUpdates now l
      = l.filter (fun kv => now - kv.2.timestamp ≤ 30000) := by
    unfold OptimisticUpdates.cleanOldUpdates
    rw [hfe]
  refine ⟨h1, ?_, ?_, ?_⟩
  · intro kv _ hold
    rw [h1]
    intro hmem
    have hp := (List.mem_filter.mp hmem).2
    have := of_decide_eq_true hp
    omega
  · intro kv hkv hle
    rw [h1]
    exact List.mem_filter.mpr ⟨hkv, decide_eq_true hle⟩
  · intro base
    rw [h1]

/-- C7 witness: at time 40000 an entry stamped 0 is swept while an entry
stamped 20000 is retained. -/
theorem C7_sweep_eviction_witness :
    ("a", (⟨"habit", "add", [("name", JSVal.jstr "Read")],
        JSVal.jundef, JSVal.jundef, JSVal.jundef, 0⟩ : PendingUpdate))
      ∉ OptimisticUpdates.cleanOldUpdates 40000
        [("a", ⟨"habit", "add", [("name", JSVal.jstr "Read")],
          JSVal.jundef, JSVal.jundef, JSVal.jundef, 0⟩),
         ("b", ⟨"todo", "add", [("title", JSVal.jstr "T")],
          JSVal.jundef, JSVal.jundef, JSVal.jundef, 20000⟩)] ∧
    ("b", (⟨"todo", "add", [("title", JSVal.jstr "T")],
        JSVal.jundef, JSVal.jundef, JSVal.jundef, 20000⟩ : PendingUpdate))
      ∈ OptimisticUpdates.cleanOldUpdates 40000
        [("a", ⟨"habit", "add", [("name", JSVal.jstr "Read")],
          JSVal.jundef, JSVal.jundef, JSVal.jundef, 0⟩),
         ("b", ⟨"todo", "add", [("title", JSVal.jstr "T")],
          JSVal.jundef, JSVal.jundef, JSVal.jundef, 20000⟩)] := by
  refine ⟨?_, ?_⟩
  · exact (C7_sweep_eviction 40000 _).2.1 _ (by decide) (by decide)
  · exact (C7_sweep_eviction 40000 _).2.2.1 _ (by decide) (by decide)

/-- C8: a second put under the same key replaces the first entirely — the
resulting ledger equals the one obtained by the second put alone, get
returns the second update stamped with the second put time, under distinct
keys the ledger holds exactly one entry for the key and its keys stay
distinct, and projection reflects only the second update. -/
theorem C8_ledger_replacement (l : Ledger) (k : String) (A B : PendingUpdate) (t1 t2 : Nat) :
    OptimisticUpdates.addPendingUpdate t2 k B (OptimisticUpdates.addPendingUpdate t1 k A l)
        = OptimisticUpdates.addPendingUpdate t2 k B l ∧
    OptimisticUpdates.getPendingUpdate k
        (OptimisticUpdates.addPendingUpdate t2 k B (OptimisticUpdates.addPendingUpdate t1 k A l))
        = some { B with timestamp := t2 } ∧
    (keysNodup l →
      countKey k (OptimisticUpdates.addPendingUpdate t2 k B
          (OptimisticUpdates.addPendingUpdate t1 k A l)) = 1 ∧
      keysNodup (OptimisticUpdates.addPendingUpdate t2 k B
          (OptimisticUpdates.addPendingUpdate t1 k A l))) ∧
    (∀ base, OptimisticUpdates.applyToHabits
        (OptimisticUpdates.addPendingUpdate t2 k B (OptimisticUpdates.addPendingUpdate t1 k A l))
        base
      = OptimisticUpdates.applyToHabits (OptimisticUpdates.addPendingUpdate t2 k B l) base) := by
  have h1 : OptimisticUpdates.addPendingUpdate t2 k B
      (OptimisticUpdates.addPendingUpdate t1 k A l)
      = OptimisticUpdates.addPendingUpdate t2 k B l := by
    unfold OptimisticUpdates.addPendingUpdate
    exact mapSet_mapSet_self k _ _ l
  refine ⟨h1, ?_, ?_, ?_⟩
  · rw [h1]
    unfold OptimisticUpdates.addPendingUpdate OptimisticUpdates.getPendingUpdate
    exact lookupKey_mapSet_self k _ l
  · intro hnd
    rw [h1]
    unfold OptimisticUpdates.addPendingUpdate
    exact ⟨countKey_mapSet_of_nodup k _ hnd, keysNodup_mapSet k _ hnd⟩
  · intro base
    rw [h1]

/-- C8 witness: two puts under one key leave a single entry holding the
second update with the second timestamp. -/
theorem C8_ledger_replacement_witness :
    OptimisticUpdates.getPendingUpdate "h1"
        (OptimisticUpdates.addPendingUpdate 5 "h1"
          ⟨"habit", "update", [("name", JSVal.jstr "B")],
            JSVal.jnum 7, JSVal.jundef, JSVal.jundef, 0⟩
          (OptimisticUpdates.addPendingUpdate 3 "h1"
            ⟨"habit", "update", [("name", JSVal.jstr "A")],
              JSVal.jnum 7, JSVal.jundef, JSVal.jundef, 0⟩ []))
      = some ⟨"habit", "update", [("name", JSVal.jstr "B")],
          JSVal.jnum 7, JSVal.jundef, JSVal.jundef, 5⟩ ∧
    countKey "h1"
        (OptimisticUpdates.addPendingUpdate 5 "h1"
          ⟨"habit", "update", [("name", JSVal.jstr "B")],
            JSVal.jnum 7, JSVal.jundef, JSVal.jundef, 0⟩
          (OptimisticUpdates.addPendingUpdate 3 "h1"
            ⟨"habit", "update", [("name", JSVal.jstr "A")],
              JSVal.jnum 7, JSVal.jundef, JSVal.jundef, 0⟩ [])) = 1 := by
  refine ⟨?_, ?_⟩
  · exact (C8_ledger_replacement [] "h1"
      ⟨"habit", "update", [("name", JSVal.jstr "A")],
        JSVal.jnum 7, JSVal.jundef, JSVal.jundef, 0⟩
      ⟨"habit", "update", [("name", JSVal.jstr "B")],
        JSVal.jnum 7, JSVal.jundef, JSVal.jundef, 0⟩ 3 5).2.1
  · exact ((C8_ledger_replacement [] "h1"
      ⟨"habit", "update", [("name", JSVal.jstr "A")],
        JSVal.jnum 7, JSVal.jundef, JSVal.jundef, 0⟩
      ⟨"habit", "update", [("name", JSVal.jstr "B")],
        JSVal.jnum 7, JSVal.jundef, JSVal.jundef, 0⟩ 3 5).2.2.1
      (by simp [keysNodup])).1

/-- C4: during fan-out of a Change Event to the observers of a key and
during fan-out of a connectivity transition, a throwing callback is caught
at the point of invocation (its error is logged in place), nothing escapes
to the transport, and every callback in the list is invoked with the event
regardless of the outcomes of its siblings. -/
theorem C4_callback_isolation :
    (∀ (s : RMState) (key : String) (env : Nat → ChangeEvent → Except String Unit)
        (e : ChangeEvent),
        deliverRM s key env e
          = Except.ok ((cbList s key).map (fun c => (c, errOf (env c e))))) ∧
    (∀ (s : CMState) (env : Nat → Bool → Except String Unit) (status : Bool),
        setOnlineStatus s env status
          = Except.ok ({ s with isOnline := status },
              s.callbacks.map (fun c => (c, errOf (env c status))))) := by
  constructor
  · intro s key env e
    unfold deliverRM
    exact fanoutE_eq env e _
  · intro s env status
    unfold setOnlineStatus
    rw [fanoutE_eq]
    rfl

/-- C5: once the unsubscribe closure for a callback has run, the callback
is no longer in the observer set of its key, a delivery for that key fans
out exactly to the current observer set and so never invokes the detached
callback, and no later subscribe of a different callback or key nor any
later unsubscribe re-introduces it. -/
theorem C5_no_event_leakage (s : RMState) (key : String) (c : Nat)
    (hnd : (cbList s key).Nodup) :
    c ∉ cbList (unsubscribeRM s key c) key ∧
    (∀ (env : Nat → ChangeEvent → Except String Unit) (e : ChangeEvent),
      ∃ logs, deliverRM (unsubscribeRM s key c) key env e = Except.ok logs ∧
        c ∉ logs.map Prod.fst) ∧
    (∀ (s2 : RMState) (k2 : String) (c2 : Nat), c ∉ cbList s2 key →
      ¬ (k2 = key ∧ c2 = c) → c ∉ cbList (subscribeRM s2 k2 c2) key) ∧
    (∀ (s2 : RMState) (k2 : String) (c2 : Nat), c ∉ cbList s2 key →
      c ∉ cbList (unsubscribeRM s2 k2 c2) key) := by
  have habsent : ∀ (s2 : RMState), lookupKey key s2.callbacks = none → cbList s2 key = [] := by
    intro s2 h
    unfold cbList
    rw [h]
    rfl
  have h1 : c ∉ cbList (unsubscribeRM s key c) key := by
    unfold unsubscribeRM
    cases hlk : lookupKey key s.callbacks with
    | none =>
      dsimp only
      intro hmem
      rw [habsent s hlk] at hmem
      exact List.not_mem_nil c hmem
    | some l =>
      dsimp only
      have hl : cbList s key = l := by
        unfold cbList
        rw [hlk]
        rfl
      by_cases hnil : delCb l c = []
      · rw [if_pos hnil]
        intro hmem
        unfold cbList at hmem
        rw [lookupKey_eraseKey_self] at hmem
        exact List.not_mem_nil c hmem
      · rw [if_neg hnil]
        intro hmem
        unfold cbList at hmem
        rw [lookupKey_mapSet_self] at hmem
        rw [hl] at hnd
        exact not_mem_delCb_self hnd c hmem
  refine ⟨h1, ?_, ?_, ?_⟩
  · intro env e
    refine ⟨(cbList (unsubscribeRM s key c) key).map (fun c2 => (c2, errOf (env c2 e))),
      ?_, ?_⟩
    · unfold deliverRM
      exact fanoutE_eq env e _
    · intro hmem
      rw [List.map_map] at hmem
      rcases List.mem_map.mp hmem with ⟨c2, hc2, he⟩
      have : c2 = c := he
      subst this
      exact h1 hc2
  · intro s2 k2 c2 hc hno
    unfold subscribeRM
    by_cases hsub2 : k2 ∈ s2.subscriptions
    · rw [if_pos hsub2]
      by_cases hk : k2 = key
      · subst hk
        have hc2 : c2 ≠ c := fun he => hno ⟨rfl, he⟩
        unfold cbList
        rw [lookupKey_mapSet_self]
        intro hmem
        rcases mem_addCb.mp hmem with hm | he
        · exact hc (by unfold cbList; exact hm)
        · exact hc2 he.symm
      · unfold cbList
        rw [lookupKey_mapSet_ne (fun he => hk he.symm)]
        exact hc
    · rw [if_neg hsub2]
      by_cases hk : k2 = key
      · subst hk
        have hc2 : c2 ≠ c := fun he => hno ⟨rfl, he⟩
        unfold cbList
        rw [lookupKey_mapSet_self]
        intro hmem
        rcases mem_addCb.mp hmem with hm | he
        · exact hc (by unfold cbList; exact hm)
        · exact hc2 he.symm
      · unfold cbList
        rw [lookupKey_mapSet_ne (fun he => hk he.symm)]
        exact hc
  · intro s2 k2 c2 hc
    unfold unsubscribeRM
    cases hlk : lookupKey k2 s2.callbacks with
    | none => exact hc
    | some l =>
      dsimp only
      by_cases hnil : delCb l c2 = []
      · rw [if_pos hnil]
        by_cases hk : k2 = key
        · subst hk
          unfold cbList
          rw [lookupKey_eraseKey_self]
          exact List.not_mem_nil c
        · unfold cbList
          rw [lookupKey_eraseKey_ne (fun he => hk he.symm)]
          exact hc
      · rw [if_neg hnil]
        by_cases hk : k2 = key
        · subst hk
          unfold cbList
          rw [lookupKey_mapSet_self]
          have hl : cbList s2 k2 = l := by
            unfold cbList
            rw [hlk]
            rfl
          intro hmem
          exact hc (by rw [hl]; exact mem_delCb_sub hmem)
        · unfold cbList
          rw [lookupKey_mapSet_ne (fun he => hk he.symm)]
          exact hc

/-- C5 witness: detaching observer 0 from a key with observers 0 and 1
removes it from the observer set at once. -/
theorem C5_no_event_leakage_witness :
    (0 : Nat) ∉ cbList
      (unsubscribeRM ⟨["habits-all"], [("habits-all", [0, 1])], 1⟩ "habits-all" 0)
      "habits-all" :=
  (C5_no_event_leakage ⟨["habits-all"], [("habits-all", [0, 1])], 1⟩ "habits-all" 0
    (by decide)).1

/-- C2, counterexample: for the interleaving subscribe 0, unsubscribe 0,
subscribe 1, unsubscribe 1 on one key (two subscribe calls, each followed
by its matching unsubscribe), the registry creates two upstream
subscriptions, not exactly one as the claim states: the first unsubscribe
empties the observer set and tears the upstream down, so the second
subscribe establishes a fresh one. -/
theorem C2_counterexample :
    (runOps ⟨[], [], 0⟩ "habits-all"
        [RMOp.sub 0, RMOp.unsub 0, RMOp.sub 1, RMOp.unsub 1]).created = 2 ∧
    ¬ (runOps ⟨[], [], 0⟩ "habits-all"
        [RMOp.sub 0, RMOp.unsub 0, RMOp.sub 1, RMOp.unsub 1]).created = 1 := by
  refine ⟨?_, ?_⟩ <;> decide

/-- C2, amended: the upstream subscription for a key exists exactly when
the observer set of the key is non-empty (an invariant preserved by both
subscribe and unsubscribe), and for every sequence of subscribe calls with
the same key interleaved with their matching unsubscribe calls in which
the observer set stays non-empty until the final unsubscribe, exactly one
upstream subscription is created; the final unsubscribe synchronously
tears it down and deletes both the subscriptions entry and the callbacks
entry for the key. -/
theorem C2_one_upstream_per_key :
    (∀ (s : RMState) (key : String) (c : Nat), invP s →
        invP (subscribeRM s key c) ∧ invP (unsubscribeRM s key c)) ∧
    (∀ (key : String) (ops : List RMOp) (s : RMState),
        okTrace [] ops = true →
        key ∉ s.subscriptions →
        lookupKey key s.callbacks = none →
        (runOps s key ops).created = s.created + 1 ∧
        key ∉ (runOps s key ops).subscriptions ∧
        lookupKey key (runOps s key ops).callbacks = none) := by
  constructor
  · intro s key c hs
    exact ⟨invP_subscribeRM s key c hs, invP_unsubscribeRM s key c hs⟩
  · intro key ops s hok h1 h2
    exact rm_trace_run key ops s hok h1 h2

/-- C2 witness: from the empty registry, subscribing observers 0 and 1 to
one key and then unsubscribing both creates exactly one upstream
subscription and ends with the key deallocated; the empty registry
satisfies the invariant and subscribe preserves it. -/
theorem C2_one_upstream_per_key_witness :
    ((runOps ⟨[], [], 0⟩ "habits-all"
        [RMOp.sub 0, RMOp.sub 1, RMOp.unsub 0, RMOp.unsub 1]).created = 0 + 1 ∧
     "habits-all" ∉ (runOps ⟨[], [], 0⟩ "habits-all"
        [RMOp.sub 0, RMOp.sub 1, RMOp.unsub 0, RMOp.unsub 1]).subscriptions ∧
     lookupKey "habits-all" (runOps ⟨[], [], 0⟩ "habits-all"
        [RMOp.sub 0, RMOp.sub 1, RMOp.unsub 0, RMOp.unsub 1]).callbacks = none) ∧
    invP (subscribeRM ⟨[], [], 0⟩ "habits-all" 0) := by
  constructor
  · exact C2_one_upstream_per_key.2 "habits-all"
      [RMOp.sub 0, RMOp.sub 1, RMOp.unsub 0, RMOp.unsub 1] ⟨[], [], 0⟩
      (by decide) (by simp) rfl
  · exact (C2_one_upstream_per_key.1 ⟨[], [], 0⟩ "habits-all" 0
      (fun key => by simp [lookupKey])).1

/-- C9: project never mutates the base collection: in a store giving
arrays identity, running the habit or todo applier through a reference
leaves the array behind the base reference (and every other pre-existing
array) exactly as it was; only the freshly allocated result array is
written. -/
theorem C9_project_no_mutation (st : Store) (r : Nat) (l : Ledger) (h : r < st.length) :
    readArr (applyToHabitsRef st r l).1 r = readArr st r ∧
    readArr (applyToTodosRef st r l).1 r = readArr st r ∧
    (∀ j, j < st.length →
      getAt ([] : List Record) (applyToHabitsRef st r l).1 j = getAt [] st j) ∧
    (∀ j, j < st.length →
      getAt ([] : List Record) (applyToTodosRef st r l).1 j = getAt [] st j) := by
  refine ⟨?_, ?_, ?_, ?_⟩
  · exact applyToHabitsRef_frame st r l r h
  · exact applyToTodosRef_frame st r l r h
  · exact applyToHabitsRef_frame st r l
  · exact applyToTodosRef_frame st r l

/-- C9 witness: a one-array store with a pending delete for the only
record: the base array is unchanged by the projection. -/
theorem C9_project_no_mutation_witness :
    readArr (applyToHabitsRef [[[("id", JSVal.jnum 1), ("name", JSVal.jstr "Read")]]] 0
        [("k", ⟨"habit", "delete", [], JSVal.jnum 1, JSVal.jundef, JSVal.jundef, 0⟩)]).1 0
      = readArr [[[("id", JSVal.jnum 1), ("name", JSVal.jstr "Read")]]] 0 :=
  (C9_project_no_mutation [[[("id", JSVal.jnum 1), ("name", JSVal.jstr "Read")]]] 0
    [("k", ⟨"habit", "delete", [], JSVal.jnum 1, JSVal.jundef, JSVal.jundef, 0⟩)]
    (by decide)).1

/-- C6: project is deterministic in its inputs: with the base array and
the ledger unchanged, a second run of the habit applier produces a result
array structurally equal to the first (and leaves the first result array
untouched); this rests on the first run not mutating the base. -/
theorem C6_projection_deterministic (st : Store) (r : Nat) (l : Ledger) (h : r < st.length) :
    readArr (applyToHabitsRef (applyToHabitsRef st r l).1 r l).1
        (applyToHabitsRef (applyToHabitsRef st r l).1 r l).2
      = readArr (applyToHabitsRef st r l).1 (applyToHabitsRef st r l).2 ∧
    readArr (applyToHabitsRef (applyToHabitsRef st r l).1 r l).1 (applyToHabitsRef st r l).2
      = readArr (applyToHabitsRef st r l).1 (applyToHabitsRef st r l).2 := by
  have e1 : readArr (applyToHabitsRef st r l).1 (applyToHabitsRef st r l).2
      = OptimisticUpdates.applyToHabits l (readArr st r) := applyToHabitsRef_read_result st r l
  have e3 : readArr (applyToHabitsRef st r l).1 r = readArr st r :=
    applyToHabitsRef_frame st r l r h
  have e2 : readArr (applyToHabitsRef (applyToHabitsRef st r l).1 r l).1
      (applyToHabitsRef (applyToHabitsRef st r l).1 r l).2
      = OptimisticUpdates.applyToHabits l (readArr (applyToHabitsRef st r l).1 r) :=
    applyToHabitsRef_read_result (applyToHabitsRef st r l).1 r l
  have hlen : st.length < (applyToHabitsRef st r l).1.length := by
    rw [applyToHabitsRef_length]
    omega
  have e4 : readArr (applyToHabitsRef (applyToHabitsRef st r l).1 r l).1
      (applyToHabitsRef st r l).2
      = readArr (applyToHabitsRef st r l).1 (applyToHabitsRef st r l).2 :=
    applyToHabitsRef_frame (applyToHabitsRef st r l).1 r l st.length hlen
  refine ⟨?_, e4⟩
  rw [e2, e3, e1]

/-- C6 witness: concrete double projection of an add pending update over a
one-array store gives structurally equal results. -/
theorem C6_projection_deterministic_witness :
    readArr (applyToHabitsRef (applyToHabitsRef [[[("id", JSVal.jnum 2)]]] 0
        [("k", ⟨"habit", "add", [("id", JSVal.jnum 3)],
          JSVal.jundef, JSVal.jundef, JSVal.jundef, 0⟩)]).1 0
        [("k", ⟨"habit", "add", [("id", JSVal.jnum 3)],
          JSVal.jundef, JSVal.jundef, JSVal.jundef, 0⟩)]).1
      (applyToHabitsRef (applyToHabitsRef [[[("id", JSVal.jnum 2)]]] 0
        [("k", ⟨"habit", "add", [("id", JSVal.jnum 3)],
          JSVal.jundef, JSVal.jundef, JSVal.jundef, 0⟩)]).1 0
        [("k", ⟨"habit", "add", [("id", JSVal.jnum 3)],
          JSVal.jundef, JSVal.jundef, JSVal.jundef, 0⟩)]).2
      = readArr (applyToHabitsRef [[[("id", JSVal.jnum 2)]]] 0
        [("k", ⟨"habit", "add", [("id", JSVal.jnum 3)],
          JSVal.jundef, JSVal.jundef, JSVal.jundef, 0⟩)]).1
        (applyToHabitsRef [[[("id", JSVal.jnum 2)]]] 0
        [("k", ⟨"habit", "add", [("id", JSVal.jnum 3)],
          JSVal.jundef, JSVal.jundef, JSVal.jundef, 0⟩)]).2 :=
  (C6_projection_deterministic [[[("id", JSVal.jnum 2)]]] 0
    [("k", ⟨"habit", "add", [("id", JSVal.jnum 3)],
      JSVal.jundef, JSVal.jundef, JSVal.jundef, 0⟩)] (by decide)).1

end Habit
